import Mathlib

/-!
Shallow embedding of `src/extrair_chaves_final.py` (NFe access-key extraction).

Texts and candidate keys are `List Char`.  The regular-expression patterns of
the source (lines 47-56) are embedded as bespoke matchers whose semantics
follow Python `re` on `str`:

* `\d` is the Unicode decimal-digit class (`isPyDigit`), given by the full
  table of `Nd` ranges (`ndExtraRanges`, generated from CPython's `re`);
  `\s` is the exact 29-code-point Python whitespace class (`pySpaceCodes`);
  `\w` for the purposes of `\b` is `isWordChar`: exact on ASCII
  (`[0-9A-Za-z_]`) and on Unicode decimal digits; Unicode letters and other
  non-digit word characters are not modelled, so statements quantified over
  arbitrary texts rely on `\b` only at ASCII or decimal-digit neighbours
  (universally quantified theorems that need `\b` at arbitrary characters
  carry an ASCII-text hypothesis).  `\b` holds at a position whose two
  neighbours (out-of-range counts as non-word) disagree on word-ness
  (`wbAt`).
* Greedy sub-patterns whose every backtracking alternative provably fails
  (for example shortening a `\s+` run always puts a whitespace character in
  front of a `\d`, and shortening a maximal `\d{8,}` run always puts a digit
  on both sides of the closing `\b`) are embedded directly as the maximal
  run; each such collapse is justified by a comment at the matcher.
* `re.findall` is the left-to-right, non-overlapping scan `scanAll`:
  try a match at each position, and on success continue at the match end
  (all embedded patterns match at least one character).

Python `int` (used on two-character slices of the key, source lines 77-94) is
modelled by `pyInt`: optional surrounding whitespace (`intSpaceCodes`, the
whitespace `int` actually strips, which excludes `'\x1c'..'\x1f'`), an
optional single sign, then a nonempty run of Unicode decimal digits with
their Unicode digit values.  (Underscore grouping, which needs a digit on
both sides and hence at least three characters, cannot occur in the
two-character slices used by the validator and is not modelled.)
Python's `set` of candidates is modelled by duplicate-free accumulation
(`addCand`); iteration order of a Python set is unspecified, so only
membership and duplicate-freeness are meaningful.
-/

/-! ## Character classes -/

/-- ASCII decimal digit, the literal class `[0-9]` of the source's
`re.sub(r'[^0-9]', ...)`, and the notion of ASCII decimal digit used by the
specification's output contract. -/
def isDigitChar (c : Char) : Bool :=
  decide (48 ≤ c.toNat) && decide (c.toNat ≤ 57)

/-- Unicode decimal-digit ranges of Python's `\d` beyond ASCII `[0-9]`:
the category `Nd` as matched by CPython's `re` (generated from CPython
3.11).  Every range is an aligned block of ten code points whose digit
value is the offset from the range start. -/
def ndExtraRanges : List (Nat × Nat) :=
  [(1632, 1641), (1776, 1785), (1984, 1993), (2406, 2415), (2534, 2543),
   (2662, 2671), (2790, 2799), (2918, 2927), (3046, 3055), (3174, 3183),
   (3302, 3311), (3430, 3439), (3558, 3567), (3664, 3673), (3792, 3801),
   (3872, 3881), (4160, 4169), (4240, 4249), (6112, 6121), (6160, 6169),
   (6470, 6479), (6608, 6617), (6784, 6793), (6800, 6809), (6992, 7001),
   (7088, 7097), (7232, 7241), (7248, 7257), (42528, 42537), (43216, 43225),
   (43264, 43273), (43472, 43481), (43504, 43513), (43600, 43609),
   (44016, 44025), (65296, 65305), (66720, 66729), (68912, 68921),
   (69734, 69743), (69872, 69881), (69942, 69951), (70096, 70105),
   (70384, 70393), (70736, 70745), (70864, 70873), (71248, 71257),
   (71360, 71369), (71472, 71481), (71904, 71913), (72016, 72025),
   (72784, 72793), (73040, 73049), (73120, 73129), (92768, 92777),
   (92864, 92873), (93008, 93017), (120782, 120791), (120792, 120801),
   (120802, 120811), (120812, 120821), (120822, 120831), (123200, 123209),
   (123632, 123641), (125264, 125273), (130032, 130041)]

/-- Whether a code point falls in one of the ranges. -/
def ndContains (n : Nat) : List (Nat × Nat) → Bool
  | [] => false
  | (a, b) :: rs => (decide (a ≤ n) && decide (n ≤ b)) || ndContains n rs

/-- Digit value of a code point relative to its range (0 when absent). -/
def ndValue (n : Nat) : List (Nat × Nat) → Nat
  | [] => 0
  | (a, b) :: rs => if a ≤ n ∧ n ≤ b then n - a else ndValue n rs

/-- Python `\d`: a Unicode decimal digit (ASCII `[0-9]` or category `Nd`). -/
def isPyDigit (c : Char) : Bool :=
  isDigitChar c || ndContains c.toNat ndExtraRanges

/-- Exact code-point set of Python's `\s` (29 code points, verified against
CPython's `re`). -/
def pySpaceCodes : List Nat :=
  [9, 10, 11, 12, 13, 28, 29, 30, 31, 32, 133, 160, 5760, 8192, 8193, 8194,
   8195, 8196, 8197, 8198, 8199, 8200, 8201, 8202, 8232, 8233, 8239, 8287,
   12288]

/-- Python `\s`. -/
def isSpaceChar (c : Char) : Bool :=
  decide (c.toNat ∈ pySpaceCodes)

/-- Exact code-point set of the whitespace Python `int()` strips (verified
against CPython: the `\s` set without `'\x1c'..'\x1f'`). -/
def intSpaceCodes : List Nat :=
  [9, 10, 11, 12, 13, 32, 133, 160, 5760, 8192, 8193, 8194, 8195, 8196,
   8197, 8198, 8199, 8200, 8201, 8202, 8232, 8233, 8239, 8287, 12288]

/-- Whitespace stripped by Python `int()`. -/
def isIntSpace (c : Char) : Bool :=
  decide (c.toNat ∈ intSpaceCodes)

/-- Word character for `\b`: exact on ASCII (`[0-9A-Za-z_]`) and on Unicode
decimal digits.  Unicode letters and other non-digit word characters are
not modelled (treated as non-word); theorems about arbitrary texts use this
class only at ASCII or decimal-digit positions. -/
def isWordChar (c : Char) : Bool :=
  isPyDigit c || (decide (65 ≤ c.toNat) && decide (c.toNat ≤ 90)) ||
  (decide (97 ≤ c.toNat) && decide (c.toNat ≤ 122)) || decide (c.toNat = 95)

/-- Separator class `[.\s-]` of `PADRAO_CHAVE_BLOCOS` (source line 49). -/
def isSepChar (c : Char) : Bool :=
  isSpaceChar c || decide (c = '.') || decide (c = '-')

/-- Unicode digit value of a digit character (as used by Python `int()`). -/
def digitVal (c : Char) : Nat :=
  if isDigitChar c then c.toNat - 48 else ndValue c.toNat ndExtraRanges

/-- Whether the character at index `i` exists and is a word character. -/
def wordAt (t : List Char) (i : Nat) : Bool :=
  match t[i]? with
  | some c => isWordChar c
  | none => false

/-- Word boundary `\b` at position `i` (between index `i - 1` and index `i`):
exactly one of the two neighbouring positions holds a word character. -/
def wbAt (t : List Char) (i : Nat) : Bool :=
  (if i = 0 then false else wordAt t (i - 1)) != wordAt t i

/-! ## Maximal runs -/

/-- Length of the maximal `\d` run at the head of the list. -/
def digitRunFrom : List Char → Nat
  | [] => 0
  | c :: cs => if isPyDigit c then digitRunFrom cs + 1 else 0

/-- Length of the maximal whitespace run at the head of the list. -/
def spaceRunFrom : List Char → Nat
  | [] => 0
  | c :: cs => if isSpaceChar c then spaceRunFrom cs + 1 else 0

/-- Length of the maximal `[.\s-]` run at the head of the list. -/
def sepRunFrom : List Char → Nat
  | [] => 0
  | c :: cs => if isSepChar c then sepRunFrom cs + 1 else 0

/-- Maximal digit run starting at position `i` of `t`. -/
def digitRun (t : List Char) (i : Nat) : Nat := digitRunFrom (t.drop i)

/-- Maximal whitespace run starting at position `i` of `t`. -/
def spaceRun (t : List Char) (i : Nat) : Nat := spaceRunFrom (t.drop i)

/-- Maximal `[.\s-]` run starting at position `i` of `t`. -/
def sepRun (t : List Char) (i : Nat) : Nat := sepRunFrom (t.drop i)

/-- Python slicing `s[a:b]` (for `a ≤ b`). -/
def pySlice (s : List Char) (a b : Nat) : List Char := (s.drop a).take (b - a)

/-- Character at index `j` (blank when out of range); used to state field
conditions about a key. -/
def charAt (s : List Char) (j : Nat) : Char := (s[j]?).getD ' '

/-- Numeric value of the two-digit field at indices `j`, `j + 1`. -/
def val2 (s : List Char) (j : Nat) : Nat :=
  10 * digitVal (charAt s j) + digitVal (charAt s (j + 1))

/-! ## Digit normalizer (source lines 58-60)

`limpar_chave` is `re.sub(r'[^0-9]', '', chave)`: scan the string and drop
every character that is not an ASCII decimal digit. -/

/-- Embedding of `limpar_chave` (source lines 58-60). -/
def limpar_chave : List Char → List Char
  | [] => []
  | c :: cs => if isDigitChar c then c :: limpar_chave cs else limpar_chave cs

/-! ## Python `int` on a string -/

/-- Digit-run value, most significant digit first. -/
def digitsVal (l : List Char) : Nat :=
  l.foldl (fun a c => 10 * a + digitVal c) 0

/-- Unsigned core of `int`: a nonempty run of Unicode decimal digits. -/
def pyIntCore (l : List Char) : Option Int :=
  if l ≠ [] ∧ (∀ c ∈ l, isPyDigit c = true) then some (digitsVal l) else none

/-- Model of Python `int(string)`: optional surrounding whitespace, optional
single sign, nonempty run of Unicode decimal digits; anything else fails. -/
def pyInt (s : List Char) : Option Int :=
  match ((s.dropWhile isIntSpace).reverse.dropWhile isIntSpace).reverse with
  | [] => none
  | c :: r =>
    if c = '+' then pyIntCore r
    else if c = '-' then (pyIntCore r).map (fun n => -n)
    else pyIntCore (c :: r)

/-! ## Key validator (source lines 62-107) -/

/-- Number of distinct characters, Python `len(set(s))`. -/
def distinctCount (s : List Char) : Nat := s.dedup.length

/-- Valid document models (source line 96): NF-e, NFC-e, CT-e, NF3e. -/
def modelos_validos : List Int := [55, 65, 57, 66]

/-- AAMM rejection condition of source line 84:
`mes < 1 or mes > 12 or ano < 0 or ano > 99`. -/
def aamm_reject (ano mes : Int) : Bool :=
  decide (mes < 1) || decide (mes > 12) || decide (ano < 0) || decide (ano > 99)

/-- Special-case acceptance path of source lines 69-73: the key starts with
`"50"` and has more than 5 distinct characters. -/
def path50 (s : List Char) : Bool :=
  decide (s.take 2 = ['5', '0']) && decide (5 < distinctCount s)

/-- Body of the `try:` block of `validar_chave_nfe` (source lines 76-104).
`Except.error ()` marks a raised conversion error (a failing `int(...)`),
`Except.ok b` a `return b` reached inside the block. -/
def validarAux (s : List Char) : Except Unit Bool :=
  match pyInt (s.take 2) with
  | none => Except.error ()
  | some uf =>
    if uf < 10 ∨ uf > 53 then Except.ok false
    else
      match pyInt (pySlice s 2 4) with
      | none => Except.error ()
      | some ano =>
        match pyInt (pySlice s 4 6) with
        | none => Except.error ()
        | some mes =>
          if aamm_reject ano mes then Except.ok false
          else if distinctCount (pySlice s 6 20) ≤ 2 then Except.ok false
          else
            match pyInt (pySlice s 20 22) with
            | none => Except.error ()
            | some modelo =>
              if ¬ (modelo ∈ modelos_validos) then Except.ok false
              else if distinctCount s ≤ 5 then Except.ok false
              else Except.ok true

/-- General structural path: the `try:` block with its `except:` handler
(source lines 76-107); a conversion error yields `False`. -/
def pathGeneral (s : List Char) : Bool :=
  match validarAux s with
  | Except.ok b => b
  | Except.error _ => false

/-- Embedding of `validar_chave_nfe` (source lines 62-107): reject on length,
then the `"50"` special case, then the general structural path. -/
def validar_chave_nfe (s : List Char) : Bool :=
  if s.length ≠ 44 then false
  else if path50 s then true
  else pathGeneral s

/-! ## Pattern matchers

Each matcher takes the text and a start position and returns `none` (the
pattern does not match there) or `some (e, payload)` where `e` is the end
position of the whole match and `payload` is what the source extracts from
the match (the matched text, or the concatenation of the capture groups). -/

/-- Matcher for `PADRAO_CHAVE_NFE = r'\b\d{44}\b'` (source line 47).
`\d{44}` is a fixed-length block of digits, bounded by word boundaries. -/
def p1At (t : List Char) (i : Nat) : Option (Nat × List Char) :=
  if wbAt t i = true ∧ 44 ≤ digitRun t i ∧ wbAt t (i + 44) = true then
    some (i + 44, (t.drop i).take 44)
  else none

/-- Matcher for `r'\b\d{8,}\b'` (source line 186).  The greedy `\d{8,}`
takes the maximal digit run: any shorter alternative places a digit on both
sides of the closing `\b`, which then fails, so only the maximal run can
match. -/
def seqAt (t : List Char) (i : Nat) : Option (Nat × List Char) :=
  if wbAt t i = true ∧ 8 ≤ digitRun t i ∧ wbAt t (i + digitRun t i) = true then
    some (i + digitRun t i, (t.drop i).take (digitRun t i))
  else none

/-- Parse `\d{4}(\s+\d{4})^(n-1)` starting at `i`: `n` four-digit groups
separated by mandatory whitespace; returns the position after the last
digit.  Greedy `\s+` takes the maximal whitespace run: shortening it places
a whitespace character where the following `\d` must match.  `\d{4}` takes
exactly four digits; a fifth digit makes the following `\s+` (or the
caller's next token) fail, so no realignment is possible. -/
def grpsWs (t : List Char) : Nat → Nat → Option Nat
  | 0, _ => none
  | 1, i => if 4 ≤ digitRun t i then some (i + 4) else none
  | n + 2, i =>
    if 4 ≤ digitRun t i ∧ 1 ≤ spaceRun t (i + 4) then
      grpsWs t (n + 1) (i + 4 + spaceRun t (i + 4))
    else none

/-- Greedy `\d{0,4}\b` at position `j` with `k` digits still allowed:
try the longest digit prefix first, then backtrack one digit at a time. -/
def trailAux (t : List Char) (j : Nat) : Nat → Option Nat
  | 0 => if wbAt t j = true then some j else none
  | k + 1 => if wbAt t (j + (k + 1)) = true then some (j + (k + 1)) else trailAux t j k

/-- Greedy `\d{0,4}\b` at position `j` (at most `min 4` available digits). -/
def trail0to4 (t : List Char) (j : Nat) : Option Nat :=
  trailAux t j (min 4 (digitRun t j))

/-- Matcher for `PADRAO_CHAVE_ESPACOS` (source line 48):
`\b(` ten times `\d{4}\s+`, then `\d{0,4}` `)\b`.  The payload is the whole
matched text (the single capture group spans the whole match). -/
def espacosAt (t : List Char) (i : Nat) : Option (Nat × List Char) :=
  if wbAt t i = true then
    match grpsWs t 10 i with
    | none => none
    | some j =>
      if 1 ≤ spaceRun t j then
        match trail0to4 t (j + spaceRun t j) with
        | none => none
        | some e => some (e, (t.drop i).take (e - i))
      else none
  else none

/-- Parse the `n` four-digit groups of `PADRAO_CHAVE_BLOCOS` separated by
`[.\s-]*`.  The greedy separator takes the maximal run of separator
characters (shortening it places a separator where `\d` must match; the run
may be empty). -/
def blocosGrps (t : List Char) : Nat → Nat → Option Nat
  | 0, _ => none
  | 1, i => if 4 ≤ digitRun t i then some (i + 4) else none
  | n + 2, i =>
    if 4 ≤ digitRun t i then blocosGrps t (n + 1) (i + 4 + sepRun t (i + 4))
    else none

/-- Matcher for `PADRAO_CHAVE_BLOCOS` (source line 49): `\b(` eleven
four-digit groups separated by `[.\s-]*` `)\b`; payload is the whole match. -/
def blocosAt (t : List Char) (i : Nat) : Option (Nat × List Char) :=
  if wbAt t i = true then
    match blocosGrps t 11 i with
    | none => none
    | some j => if wbAt t j = true then some (j, (t.drop i).take (j - i)) else none
  else none

/-- Matcher for `PADRAO_DCELT` (source line 56): `\b(` eleven four-digit
groups separated by `\s+` `)\b`; payload is the whole match. -/
def dceltAt (t : List Char) (i : Nat) : Option (Nat × List Char) :=
  if wbAt t i = true then
    match grpsWs t 11 i with
    | none => none
    | some j => if wbAt t j = true then some (j, (t.drop i).take (j - i)) else none
  else none

/-- Tail `\s*\n\s*` at position `j`, ending after the whitespace: since `\s`
includes `\n`, the three tokens together consume the maximal whitespace run
provided it contains at least one newline (every backtracking alternative
ends at the same position, because the following `\d` cannot match a
whitespace character). -/
def newlineTail (t : List Char) (j : Nat) : Option Nat :=
  if '\n' ∈ (t.drop j).take (spaceRun t j) then some (j + spaceRun t j) else none

/-- Matcher for `PADRAO_ENERGISA_2` (source line 54): `\b(` ten four-digit
groups separated by `\s+` `)\s*\n\s*(\d{4})\b`.  The payload is the
concatenation of the two capture groups, as built by the source
(`parte1 + parte2`, line 174). -/
def energisa2At (t : List Char) (i : Nat) : Option (Nat × List Char) :=
  if wbAt t i = true then
    match grpsWs t 10 i with
    | none => none
    | some j =>
      match newlineTail t j with
      | none => none
      | some p =>
        if 4 ≤ digitRun t p ∧ wbAt t (p + 4) = true then
          some (p + 4, (t.drop i).take (j - i) ++ (t.drop p).take 4)
        else none
  else none

/-- Case-insensitive literal word match (ASCII), for the `re.IGNORECASE`
label of `PADRAO_ENERGISA_1`; `w` is given in lowercase. -/
def matchLabelCI (t : List Char) : Nat → List Char → Option Nat
  | i, [] => some i
  | i, c :: cs =>
    match t[i]? with
    | some d => if d.toLower = c then matchLabelCI t (i + 1) cs else none
    | none => none

/-- Matcher for `PADRAO_ENERGISA_1` (source line 52):
`chave\s+de\s+acesso\s*:?\s*\n?\s*(` ten four-digit groups separated by
`\s+` `)\s*\n\s*(\d{4})`, case-insensitive.  Since `\s` includes `\n`, the
token sequence `\s*:?\s*\n?\s*` matches exactly a whitespace run with at
most one colon inside it; there is no `\b` anywhere in this pattern.  The
payload is `parte1 + parte2` (source line 167). -/
def energisa1At (t : List Char) (i : Nat) : Option (Nat × List Char) :=
  match matchLabelCI t i ['c', 'h', 'a', 'v', 'e'] with
  | none => none
  | some p1 =>
    if 1 ≤ spaceRun t p1 then
      match matchLabelCI t (p1 + spaceRun t p1) ['d', 'e'] with
      | none => none
      | some p2 =>
        if 1 ≤ spaceRun t p2 then
          match matchLabelCI t (p2 + spaceRun t p2) ['a', 'c', 'e', 's', 's', 'o'] with
          | none => none
          | some p3 =>
            let q1 := p3 + spaceRun t p3
            let q2 := if t[q1]? = some ':' then q1 + 1 else q1
            let q3 := q2 + spaceRun t q2
            match grpsWs t 10 q3 with
            | none => none
            | some j =>
              match newlineTail t j with
              | none => none
              | some p =>
                if 4 ≤ digitRun t p then
                  some (p + 4, (t.drop q3).take (j - q3) ++ (t.drop p).take 4)
                else none
        else none
    else none

/-! ## The findall scan -/

/-- Left-to-right non-overlapping scan, the semantics of `re.findall`:
try the matcher at each position; on a match record its payload and continue
at the match end (all embedded matchers consume at least one character, so
`max e (pos + 1)` equals the match end `e`). -/
def scanAllAux (m : List Char → Nat → Option (Nat × List Char))
    (t : List Char) : Nat → Nat → List (List Char)
  | 0, _ => []
  | fuel + 1, pos =>
    if t.length ≤ pos then []
    else
      match m t pos with
      | some (e, a) => a :: scanAllAux m t fuel (max e (pos + 1))
      | none => scanAllAux m t fuel (pos + 1)

/-- All payloads of `m` on `t`, in scan order. -/
def scanAll (m : List Char → Nat → Option (Nat × List Char))
    (t : List Char) : List (List Char) :=
  scanAllAux m t (t.length + 1) 0

/-! ## Candidate aggregation (source lines 145-198) -/

/-- Python `set.add`: keep the collection duplicate-free (iteration order of
a Python set is unspecified; only membership matters downstream). -/
def addCand (l : List (List Char)) (c : List Char) : List (List Char) :=
  if c ∈ l then l else c :: l

/-- Sliding windows of source lines 188-191: every 44-character window of a
digit run of length at least 44. -/
def windows44 (seq : List Char) : List (List Char) :=
  if 44 ≤ seq.length then
    (List.range (seq.length - 43)).map (fun i => (seq.drop i).take 44)
  else []

/-- Sliding-window fallback of source lines 185-191: windows of every
`\b\d{8,}\b` match, in scan order. -/
def sliding_fallback (t : List Char) : List (List Char) :=
  (scanAll seqAt t).foldl (fun acc s => acc ++ windows44 s) []

/-- Everything added to the candidate set of `encontrar_chaves_acesso`, in
source order: the contiguous pattern (line 151), the spaced and block
patterns cleaned (lines 155-162), the two Energisa patterns and the Dcelt
pattern cleaned and kept only at cleaned length 44 (lines 164-183), and the
sliding-window fallback (lines 185-191). -/
def addedList (t : List Char) : List (List Char) :=
  scanAll p1At t
    ++ (scanAll espacosAt t).map limpar_chave
    ++ (scanAll blocosAt t).map limpar_chave
    ++ ((scanAll energisa1At t).map limpar_chave).filter (fun c => decide (c.length = 44))
    ++ ((scanAll energisa2At t).map limpar_chave).filter (fun c => decide (c.length = 44))
    ++ ((scanAll dceltAt t).map limpar_chave).filter (fun c => decide (c.length = 44))
    ++ sliding_fallback t

/-- The candidate set `candidatos` after all additions. -/
def candidatos (t : List Char) : List (List Char) :=
  (addedList t).foldl addCand []

/-- Embedding of `encontrar_chaves_acesso` (source lines 145-198): validate
every candidate, keeping those of length 44 accepted by the validator. -/
def encontrar_chaves_acesso (t : List Char) : List (List Char) :=
  (candidatos t).filter (fun c => decide (c.length = 44) && validar_chave_nfe c)

/-- Routing decision of `processar_arquivos` (source line 248): a document
goes to the has-key folder exactly when its key list is nonempty. -/
def tem_chave (t : List Char) : Bool :=
  !(encontrar_chaves_acesso t).isEmpty

/-! ## Concrete inputs used to instantiate the theorems -/

/-- Structurally valid key: UF 35, AAMM 08/01, CNPJ field `12345678901234`,
model 55, ten distinct digits. -/
def chaveK55 : List Char :=
  "35080112345678901234550000000000000000000000".toList

/-- All-digit key starting `50` whose model field (positions 20-21) is 99,
not a valid model. -/
def chaveW50 : List Char :=
  "50123456789012345678990123456789012345678901".toList

/-- Length-44 string starting `50` that contains letters. -/
def chaveW9 : List Char :=
  "50abcdefzzzzzzzzzzzzzzzzzzzzzzzzzzzzzzzzzzzz".toList

/-- Length-44 string whose first field `ab` fails integer conversion. -/
def chaveBad : List Char :=
  "ab111111111111111111111111111111111111111111".toList

/-- End-to-end input text of the specification's scenario (spec section 8). -/
def textoC2 : List Char :=
  "Chave de acesso: 3525 0812 3456 7801 2345 6789 0123 4567 8901 2345\n6789".toList

/-- Concatenation of the 44 digits of `textoC2`. -/
def chaveC2 : List Char :=
  "35250812345678012345678901234567890123456789".toList

/-- Degenerate key with UF 35, valid AAMM, CNPJ field with 3 distinct
characters and model 55, but only 4 distinct characters overall. -/
def chaveDeg : List Char :=
  "35010101301301301301550101010101010101010101".toList

/-- Digit run of length 50 with all ten digits. -/
def texto50 : List Char :=
  "12345678901234567890123456789012345678901234567890".toList

/-- Length-44 text: `"50"` followed by 42 Arabic-Indic decimal digits
(U+0660 to U+0665), all matched by Python's `\d`; it has 8 distinct
characters. -/
def textoU : List Char :=
  "50٠١٢٣٤٥٠١٢٣٤٥٠١٢٣٤٥٠١٢٣٤٥٠١٢٣٤٥٠١٢٣٤٥٠١٢٣٤٥".toList

/-! ## Basic lemmas about characters and runs -/

theorem mem_of_getElem_eq {l : List Char} {j : Nat} {c : Char}
    (h : l[j]? = some c) : c ∈ l := by
  have hj : j < l.length := by
    by_contra hn
    rw [List.getElem?_eq_none (by omega)] at h
    exact Option.noConfusion h
  rw [List.getElem?_eq_getElem hj] at h
  exact (Option.some.inj h) ▸ l.getElem_mem hj

theorem isPyDigit_of_digit {c : Char} (h : isDigitChar c = true) :
    isPyDigit c = true := by
  simp [isPyDigit, h]

theorem isWordChar_of_pydigit {c : Char} (h : isPyDigit c = true) :
    isWordChar c = true := by
  simp [isWordChar, h]

theorem isWordChar_of_digit {c : Char} (h : isDigitChar c = true) :
    isWordChar c = true :=
  isWordChar_of_pydigit (isPyDigit_of_digit h)

theorem ndContains_lb {n : Nat} {rs : List (Nat × Nat)}
    (hlb : ∀ p ∈ rs, 1632 ≤ p.1) (h : ndContains n rs = true) : 1632 ≤ n := by
  induction rs with
  | nil => simp [ndContains] at h
  | cons p rs ih =>
    rcases p with ⟨a, b⟩
    simp only [ndContains, Bool.or_eq_true, Bool.and_eq_true,
      decide_eq_true_eq] at h
    rcases h with ⟨h1, _⟩ | h2
    · have := hlb (a, b) (by simp)
      simp at this
      omega
    · exact ih (fun p hp => hlb p (by simp [hp])) h2

theorem digit_of_ascii_pydigit {c : Char} (h : isPyDigit c = true)
    (ha : c.toNat ≤ 127) : isDigitChar c = true := by
  simp only [isPyDigit, Bool.or_eq_true] at h
  rcases h with h | h
  · exact h
  · have := ndContains_lb (by decide) h
    omega

theorem ndValue_le_nine {n : Nat} {rs : List (Nat × Nat)}
    (h9 : ∀ p ∈ rs, p.2 ≤ p.1 + 9) : ndValue n rs ≤ 9 := by
  induction rs with
  | nil => simp [ndValue]
  | cons p rs ih =>
    rcases p with ⟨a, b⟩
    simp only [ndValue]
    split
    · have := h9 (a, b) (by simp)
      simp at this
      omega
    · exact ih (fun p hp => h9 p (by simp [hp]))

theorem digitVal_le_nine (c : Char) : digitVal c ≤ 9 := by
  unfold digitVal
  split
  · simp_all only [isDigitChar, Bool.and_eq_true, decide_eq_true_eq]
    omega
  · exact ndValue_le_nine (by decide)

theorem not_intspace_of_pydigit {c : Char} (h : isPyDigit c = true) :
    isIntSpace c = false := by
  unfold isIntSpace
  apply decide_eq_false
  intro hmem
  simp only [isPyDigit, Bool.or_eq_true] at h
  rcases h with h | h
  · simp only [isDigitChar, Bool.and_eq_true, decide_eq_true_eq] at h
    simp only [intSpaceCodes, List.mem_cons, List.not_mem_nil, or_false] at hmem
    omega
  · have hall : ∀ m ∈ intSpaceCodes, ndContains m ndExtraRanges = false := by
      decide
    exact absurd h (by simp [hall c.toNat hmem])

theorem ne_plus_of_pydigit {c : Char} (h : isPyDigit c = true) : c ≠ '+' := by
  intro he
  subst he
  exact absurd h (by decide)

theorem ne_minus_of_pydigit {c : Char} (h : isPyDigit c = true) : c ≠ '-' := by
  intro he
  subst he
  exact absurd h (by decide)

theorem digitRunFrom_le_length (l : List Char) : digitRunFrom l ≤ l.length := by
  induction l with
  | nil => simp [digitRunFrom]
  | cons c cs ih =>
    simp only [digitRunFrom, List.length_cons]
    split
    · omega
    · omega

theorem digitRunFrom_get (l : List Char) :
    ∀ j, j < digitRunFrom l → ∃ c, l[j]? = some c ∧ isPyDigit c = true := by
  induction l with
  | nil => simp [digitRunFrom]
  | cons c cs ih =>
    intro j h
    simp only [digitRunFrom] at h
    split at h
    · cases j with
      | zero => exact ⟨c, by simp, by assumption⟩
      | succ j' =>
        obtain ⟨d, hd, hdig⟩ := ih j' (by omega)
        exact ⟨d, by simpa using hd, hdig⟩
    · omega

theorem digitRunFrom_ge {l : List Char} {n : Nat} (hn : n ≤ l.length)
    (h : ∀ c ∈ l.take n, isPyDigit c = true) : n ≤ digitRunFrom l := by
  induction l generalizing n with
  | nil =>
    simp only [digitRunFrom]
    simp at hn
    omega
  | cons c cs ih =>
    cases n with
    | zero => omega
    | succ m =>
      simp only [List.take_succ_cons] at h
      have hc : isPyDigit c = true := h c (by simp)
      simp only [digitRunFrom, hc, if_pos]
      have := ih (n := m) (by simpa using hn) (fun d hd => h d (by simp [hd]))
      omega

theorem digitRunFrom_all {l : List Char}
    (h : ∀ c ∈ l, isPyDigit c = true) : digitRunFrom l = l.length := by
  have h1 := digitRunFrom_le_length l
  have h2 := digitRunFrom_ge (Nat.le_refl l.length)
    (fun c hc => h c (by simpa [List.take_length] using hc))
  omega

theorem digitRunFrom_take_all {l : List Char} :
    ∀ c ∈ l.take (digitRunFrom l), isPyDigit c = true := by
  induction l with
  | nil => simp
  | cons c cs ih =>
    simp only [digitRunFrom]
    split
    · intro d hd
      rw [List.take_succ_cons] at hd
      rcases List.mem_cons.mp hd with h | h
      · subst h; assumption
      · exact ih d h
    · simp

/-! ## Lemmas about the digit normalizer -/

theorem limpar_chave_eq_filter (s : List Char) :
    limpar_chave s = s.filter isDigitChar := by
  induction s with
  | nil => rfl
  | cons c cs ih =>
    simp only [limpar_chave, List.filter_cons]
    split
    · simp_all
    · simp_all

theorem limpar_chave_digits {s : List Char} :
    ∀ c ∈ limpar_chave s, isDigitChar c = true := by
  intro c hc
  rw [limpar_chave_eq_filter] at hc
  exact (List.mem_filter.mp hc).2

theorem limpar_chave_idem (s : List Char) :
    limpar_chave (limpar_chave s) = limpar_chave s := by
  simp [limpar_chave_eq_filter, List.filter_filter]

/-! ## Lemmas about the candidate set -/

theorem mem_addCand {x c : List Char} {l : List (List Char)} :
    x ∈ addCand l c ↔ x = c ∨ x ∈ l := by
  unfold addCand
  split
  · constructor
    · intro h; exact Or.inr h
    · rintro (rfl | h)
      · assumption
      · assumption
  · simp [List.mem_cons]

theorem nodup_addCand {c : List Char} {l : List (List Char)} (h : l.Nodup) :
    (addCand l c).Nodup := by
  unfold addCand
  split
  · exact h
  · exact List.nodup_cons.mpr ⟨by assumption, h⟩

theorem mem_foldl_addCand_acc {x : List Char} {L : List (List Char)} :
    ∀ {acc : List (List Char)}, x ∈ acc → x ∈ L.foldl addCand acc := by
  induction L with
  | nil => intro acc h; simpa using h
  | cons y ys ih =>
    intro acc h
    exact ih (mem_addCand.mpr (Or.inr h))

theorem mem_foldl_addCand_of_mem {x : List Char} {L : List (List Char)}
    (h : x ∈ L) : ∀ acc : List (List Char), x ∈ L.foldl addCand acc := by
  induction L with
  | nil => simp at h
  | cons y ys ih =>
    intro acc
    simp only [List.foldl_cons]
    rcases List.mem_cons.mp h with rfl | h2
    · exact mem_foldl_addCand_acc (mem_addCand.mpr (Or.inl rfl))
    · exact ih h2 (addCand acc y)

theorem mem_of_foldl_addCand {x : List Char} {L : List (List Char)} :
    ∀ {acc : List (List Char)}, x ∈ L.foldl addCand acc → x ∈ acc ∨ x ∈ L := by
  induction L with
  | nil => intro acc h; exact Or.inl (by simpa using h)
  | cons y ys ih =>
    intro acc h
    rcases ih h with h2 | h2
    · rcases mem_addCand.mp h2 with rfl | h3
      · exact Or.inr (by simp)
      · exact Or.inl h3
    · exact Or.inr (by simp [h2])

theorem nodup_foldl_addCand {L : List (List Char)} :
    ∀ {acc : List (List Char)}, acc.Nodup → (L.foldl addCand acc).Nodup := by
  induction L with
  | nil => intro acc h; simpa using h
  | cons y ys ih => intro acc h; exact ih (nodup_addCand h)

/-! ## Lemmas about the integer parser -/

theorem pyInt_two_digits {c d : Char} (hc : isPyDigit c = true)
    (hd : isPyDigit d = true) :
    pyInt [c, d] = some ((10 * digitVal c + digitVal d : Nat) : Int) := by
  have hsc := not_intspace_of_pydigit hc
  have hsd := not_intspace_of_pydigit hd
  have htrim : (([c, d].dropWhile isIntSpace).reverse.dropWhile
      isIntSpace).reverse = [c, d] := by
    simp [List.dropWhile, hsc, hsd]
  unfold pyInt
  rw [htrim]
  show (if c = '+' then pyIntCore [d]
      else if c = '-' then (pyIntCore [d]).map (fun n => -n)
      else pyIntCore (c :: [d])) = some ((10 * digitVal c + digitVal d : Nat) : Int)
  rw [if_neg (ne_plus_of_pydigit hc), if_neg (ne_minus_of_pydigit hc)]
  unfold pyIntCore
  rw [if_pos ⟨by simp, by simp [hc, hd]⟩]
  simp [digitsVal, List.foldl]

theorem pySlice_two {l : List Char} {a : Nat} (h : a + 2 ≤ l.length) :
    ∃ c d, pySlice l a (a + 2) = [c, d] ∧ l[a]? = some c ∧
      l[a + 1]? = some d := by
  have hlen : 2 ≤ (l.drop a).length := by
    simp [List.length_drop]
    omega
  rcases hdr : l.drop a with _ | ⟨c, r⟩
  · rw [hdr] at hlen
    simp at hlen
  · rcases hr : r with _ | ⟨d, r2⟩
    · rw [hdr, hr] at hlen
      simp at hlen
    · refine ⟨c, d, ?_, ?_, ?_⟩
      · simp [pySlice, hdr, hr, List.take]
      · have := List.getElem?_drop l a 0
        rw [hdr] at this
        simpa using this.symm
      · have := List.getElem?_drop l a 1
        rw [hdr, hr] at this
        simpa using this.symm

theorem pyInt_field {l : List Char} {a : Nat} (h : a + 2 ≤ l.length)
    (hc : isDigitChar (charAt l a) = true)
    (hd : isDigitChar (charAt l (a + 1)) = true) :
    pyInt (pySlice l a (a + 2)) = some ((val2 l a : Nat) : Int) := by
  obtain ⟨c, d, hs, h1, h2⟩ := pySlice_two h
  have hca : charAt l a = c := by simp [charAt, h1]
  have hcd : charAt l (a + 1) = d := by simp [charAt, h2]
  rw [hs, pyInt_two_digits (isPyDigit_of_digit (hca ▸ hc))
    (isPyDigit_of_digit (hcd ▸ hd))]
  simp [val2, hca, hcd]

theorem val2_le_99 (l : List Char) (a : Nat) : val2 l a ≤ 99 := by
  have h1 := digitVal_le_nine (charAt l a)
  have h2 := digitVal_le_nine (charAt l (a + 1))
  simp only [val2]
  omega

theorem aamm_reject_of_bounded {a m : Int} (h0 : 0 ≤ a) (h99 : a ≤ 99) :
    aamm_reject a m = (decide (m < 1) || decide (m > 12)) := by
  unfold aamm_reject
  rw [decide_eq_false (by omega : ¬ a < 0), decide_eq_false (by omega : ¬ a > 99)]
  simp

/-! ## Lemmas about the validator -/

theorem validar_eq_paths (s : List Char) :
    validar_chave_nfe s =
      (decide (s.length = 44) && (path50 s || pathGeneral s)) := by
  by_cases h : s.length = 44
  · by_cases h2 : path50 s = true
    · simp [validar_chave_nfe, h, h2]
    · have h2f : path50 s = false := by simpa using h2
      simp [validar_chave_nfe, h, h2f]
  · simp [validar_chave_nfe, h]

theorem validarAux_ok_true_distinct {s : List Char}
    (h : validarAux s = Except.ok true) : 5 < distinctCount s := by
  unfold validarAux at h
  cases h1 : pyInt (s.take 2) <;> simp only [h1] at h
  · simp at h
  · split at h
    · simp at h
    · cases h2 : pyInt (pySlice s 2 4) <;> simp only [h2] at h
      · simp at h
      · cases h3 : pyInt (pySlice s 4 6) <;> simp only [h3] at h
        · simp at h
        · split at h
          · simp at h
          · split at h
            · simp at h
            · cases h4 : pyInt (pySlice s 20 22) <;> simp only [h4] at h
              · simp at h
              · split at h
                · simp at h
                · split at h
                  · simp at h
                  · omega

theorem pathGeneral_true_distinct {s : List Char}
    (h : pathGeneral s = true) : 5 < distinctCount s := by
  unfold pathGeneral at h
  cases hv : validarAux s <;> simp only [hv] at h
  · simp at h
  · exact validarAux_ok_true_distinct (by rw [hv, h])

/-! ## Lemmas about the findall scan -/

theorem scanAllAux_stop {m : List Char → Nat → Option (Nat × List Char)}
    {t : List Char} {pos : Nat} (fuel : Nat) (h : t.length ≤ pos) :
    scanAllAux m t fuel pos = [] := by
  cases fuel with
  | zero => rfl
  | succ f => simp [scanAllAux, h]

theorem scanAll_forall {m : List Char → Nat → Option (Nat × List Char)}
    {t : List Char} {P : List Char → Prop}
    (hP : ∀ i e a, m t i = some (e, a) → P a) :
    ∀ a ∈ scanAll m t, P a := by
  suffices hs : ∀ fuel pos, ∀ a ∈ scanAllAux m t fuel pos, P a from hs _ 0
  intro fuel
  induction fuel with
  | zero => intro pos a ha; simp [scanAllAux] at ha
  | succ f ih =>
    intro pos a ha
    simp only [scanAllAux] at ha
    split at ha
    · simp at ha
    · rcases hm : m t pos with _ | ⟨e, b⟩ <;> simp only [hm] at ha
      · exact ih _ a ha
      · rcases List.mem_cons.mp ha with rfl | ha2
        · exact hP pos e a hm
        · exact ih _ a ha2

theorem p1At_inv {t : List Char} {i e : Nat} {a : List Char}
    (h : p1At t i = some (e, a)) :
    wbAt t i = true ∧ 44 ≤ digitRun t i ∧ wbAt t (i + 44) = true ∧
      e = i + 44 ∧ a = (t.drop i).take 44 := by
  unfold p1At at h
  split at h
  · rcases h with ⟨⟩
    exact ⟨by tauto, by tauto, by tauto, rfl, rfl⟩
  · simp at h

theorem digitRun_le {t : List Char} {i : Nat} : digitRun t i ≤ t.length - i := by
  have h1 := digitRunFrom_le_length (t.drop i)
  simpa [digitRun, List.length_drop] using h1

theorem digitRun_word {t : List Char} {i j : Nat} (h : j < digitRun t i) :
    wordAt t (i + j) = true := by
  obtain ⟨c, hc, hdig⟩ := digitRunFrom_get (t.drop i) j h
  rw [List.getElem?_drop] at hc
  simp [wordAt, hc, isWordChar_of_pydigit hdig]

/-- Completeness of the findall scan for the contiguous pattern: a match of
`\b\d{44}\b` is found by the left-to-right scan.  Two matches of this
pattern cannot overlap: a later match start inside an earlier match would
sit between two digits, where `\b` fails. -/
theorem p1_scan_complete {t : List Char} {i : Nat} {k : List Char}
    (hm : p1At t i = some (i + 44, k)) : k ∈ scanAll p1At t := by
  obtain ⟨hwb1, hrun, hwb2, _, hk⟩ := p1At_inv hm
  have hilen : i + 44 ≤ t.length := by
    have h2 : digitRun t i ≤ t.length - i := digitRun_le
    omega
  have hpre : wordAt t (i - 1) = false ∨ i = 0 := by
    by_cases h0 : i = 0
    · exact Or.inr h0
    · left
      have hw0 : wordAt t i = true := by
        have := digitRun_word (t := t) (i := i) (j := 0) (by omega)
        simpa using this
      simp only [wbAt, if_neg h0, hw0, bne_iff_ne] at hwb1
      rcases hb : wordAt t (i - 1) with _ | _
      · rfl
      · exact absurd rfl (hb ▸ hwb1)
  suffices hs : ∀ fuel pos, pos ≤ i → t.length + 1 ≤ fuel + pos →
      k ∈ scanAllAux p1At t fuel pos from
    hs (t.length + 1) 0 (by omega) (by omega)
  intro fuel
  induction fuel with
  | zero =>
    intro pos hpos hfuel
    omega
  | succ f ih =>
    intro pos hpos hfuel
    simp only [scanAllAux]
    rw [if_neg (by omega)]
    by_cases hpi : pos = i
    · subst hpi
      rw [hm]
      simp
    · have hlt : pos < i := by omega
      rcases hmp : p1At t pos with _ | ⟨e, a⟩
      · exact ih (pos + 1) (by omega) (by omega)
      · obtain ⟨_, hrun2, _, he, _⟩ := p1At_inv hmp
        have hsep : pos + 44 ≤ i := by
          by_contra hov
          have hj : i - 1 - pos < digitRun t pos := by omega
          have hw := digitRun_word hj
          have hip : pos + (i - 1 - pos) = i - 1 := by omega
          rw [hip] at hw
          rcases hpre with hpre | hpre
          · exact absurd hw (by simp [hpre])
          · omega
        subst he
        show k ∈ a :: scanAllAux p1At t f (max (pos + 44) (pos + 1))
        have hmax : max (pos + 44) (pos + 1) = pos + 44 := by omega
        rw [hmax]
        exact List.mem_cons_of_mem a (ih (pos + 44) (by omega) (by omega))

/-! ## Every candidate is a digit string -/

theorem digits_of_mem_take {l : List Char} {n : Nat}
    (hn : n ≤ digitRunFrom l) : ∀ c ∈ l.take n, isPyDigit c = true := by
  induction l generalizing n with
  | nil => simp
  | cons c cs ih =>
    intro d hd
    cases n with
    | zero => simp at hd
    | succ m =>
      simp only [digitRunFrom] at hn
      split at hn
      · rw [List.take_succ_cons] at hd
        rcases List.mem_cons.mp hd with rfl | hd2
        · assumption
        · exact ih (by omega) d hd2
      · omega

theorem seqAt_inv {t : List Char} {i e : Nat} {a : List Char}
    (h : seqAt t i = some (e, a)) :
    wbAt t i = true ∧ 8 ≤ digitRun t i ∧ wbAt t (i + digitRun t i) = true ∧
      e = i + digitRun t i ∧ a = (t.drop i).take (digitRun t i) := by
  unfold seqAt at h
  split at h
  · rcases h with ⟨⟩
    exact ⟨by tauto, by tauto, by tauto, rfl, rfl⟩
  · simp at h

theorem p1_payload_chars {t : List Char} :
    ∀ a ∈ scanAll p1At t, ∀ c ∈ a, isPyDigit c = true ∧ c ∈ t := by
  apply scanAll_forall
  intro i e a hm
  obtain ⟨_, hrun, _, _, ha⟩ := p1At_inv hm
  subst ha
  intro c hc
  exact ⟨digits_of_mem_take hrun c hc,
    List.mem_of_mem_drop (List.mem_of_mem_take hc)⟩

theorem seq_payload_chars {t : List Char} :
    ∀ a ∈ scanAll seqAt t, ∀ c ∈ a, isPyDigit c = true ∧ c ∈ t := by
  apply scanAll_forall
  intro i e a hm
  obtain ⟨_, _, _, _, ha⟩ := seqAt_inv hm
  subst ha
  intro c hc
  exact ⟨digits_of_mem_take (Nat.le_refl _) c hc,
    List.mem_of_mem_drop (List.mem_of_mem_take hc)⟩

theorem mem_foldl_append {x : List Char} {L : List (List Char)} :
    ∀ {acc : List (List Char)},
      x ∈ L.foldl (fun acc s => acc ++ windows44 s) acc →
      x ∈ acc ∨ ∃ s ∈ L, x ∈ windows44 s := by
  induction L with
  | nil => intro acc h; exact Or.inl (by simpa using h)
  | cons y ys ih =>
    intro acc h
    simp only [List.foldl_cons] at h
    rcases ih h with h2 | ⟨s, hs, hx⟩
    · rcases List.mem_append.mp h2 with h3 | h3
      · exact Or.inl h3
      · exact Or.inr ⟨y, by simp, h3⟩
    · exact Or.inr ⟨s, by simp [hs], hx⟩

theorem mem_windows44 {x s : List Char} (h : x ∈ windows44 s) :
    ∃ i, x = (s.drop i).take 44 := by
  unfold windows44 at h
  split at h
  · obtain ⟨i, _, hx⟩ := List.mem_map.mp h
    exact ⟨i, hx.symm⟩
  · simp at h

theorem sliding_fallback_chars {t : List Char} :
    ∀ x ∈ sliding_fallback t, ∀ c ∈ x, isPyDigit c = true ∧ c ∈ t := by
  intro x hx c hc
  unfold sliding_fallback at hx
  rcases mem_foldl_append hx with h | ⟨s, hs, hxs⟩
  · simp at h
  · obtain ⟨i, hform⟩ := mem_windows44 hxs
    subst hform
    have hcs : c ∈ s := List.mem_of_mem_drop (List.mem_of_mem_take hc)
    exact seq_payload_chars s hs c hcs

theorem addedList_chars {t : List Char} :
    ∀ x ∈ addedList t, ∀ c ∈ x,
      isPyDigit c = true ∧ (isDigitChar c = true ∨ c ∈ t) := by
  intro x hx
  unfold addedList at hx
  simp only [List.mem_append] at hx
  rcases hx with ((((((h | h) | h) | h) | h) | h) | h)
  · intro c hc
    obtain ⟨h1, h2⟩ := p1_payload_chars x h c hc
    exact ⟨h1, Or.inr h2⟩
  · obtain ⟨y, _, hy⟩ := List.mem_map.mp h
    intro c hc
    have := (hy ▸ limpar_chave_digits) c hc
    exact ⟨isPyDigit_of_digit this, Or.inl this⟩
  · obtain ⟨y, _, hy⟩ := List.mem_map.mp h
    intro c hc
    have := (hy ▸ limpar_chave_digits) c hc
    exact ⟨isPyDigit_of_digit this, Or.inl this⟩
  · obtain ⟨y, _, hy⟩ := List.mem_map.mp (List.mem_of_mem_filter h)
    intro c hc
    have := (hy ▸ limpar_chave_digits) c hc
    exact ⟨isPyDigit_of_digit this, Or.inl this⟩
  · obtain ⟨y, _, hy⟩ := List.mem_map.mp (List.mem_of_mem_filter h)
    intro c hc
    have := (hy ▸ limpar_chave_digits) c hc
    exact ⟨isPyDigit_of_digit this, Or.inl this⟩
  · obtain ⟨y, _, hy⟩ := List.mem_map.mp (List.mem_of_mem_filter h)
    intro c hc
    have := (hy ▸ limpar_chave_digits) c hc
    exact ⟨isPyDigit_of_digit this, Or.inl this⟩
  · intro c hc
    obtain ⟨h1, h2⟩ := sliding_fallback_chars x h c hc
    exact ⟨h1, Or.inr h2⟩

theorem candidatos_chars {t : List Char} :
    ∀ x ∈ candidatos t, ∀ c ∈ x,
      isPyDigit c = true ∧ (isDigitChar c = true ∨ c ∈ t) := by
  intro x hx
  unfold candidatos at hx
  rcases mem_of_foldl_addCand hx with h | h
  · simp at h
  · exact addedList_chars x h

theorem candidatos_nodup (t : List Char) : (candidatos t).Nodup := by
  unfold candidatos
  exact nodup_foldl_addCand List.nodup_nil

/-! ## Helper lemmas for the sliding-window and field-condition claims -/

theorem scanAllAux_cons {m : List Char → Nat → Option (Nat × List Char)}
    {t : List Char} {pos e : Nat} {a : List Char} (fuel : Nat)
    (hpos : pos < t.length) (hm : m t pos = some (e, a)) :
    scanAllAux m t (fuel + 1) pos = a :: scanAllAux m t fuel (max e (pos + 1)) := by
  simp only [scanAllAux]
  rw [if_neg (by omega), hm]

theorem charAt_digit {s : List Char} (hdig : ∀ c ∈ s, isDigitChar c = true)
    {j : Nat} (hj : j < s.length) : isDigitChar (charAt s j) = true := by
  rw [charAt, List.getElem?_eq_getElem hj]
  simpa using hdig _ (s.getElem_mem hj)

theorem seq_scan_single {t : List Char} (hlen : t.length = 50)
    (hdig : ∀ c ∈ t, isDigitChar c = true) : scanAll seqAt t = [t] := by
  have hrun : digitRun t 0 = 50 := by
    simp only [digitRun, List.drop_zero]
    rw [digitRunFrom_all (fun c hc => isPyDigit_of_digit (hdig c hc)), hlen]
  have hw0 : wordAt t 0 = true := by
    have := digitRun_word (t := t) (i := 0) (j := 0) (by omega)
    simpa using this
  have hw49 : wordAt t 49 = true := by
    have := digitRun_word (t := t) (i := 0) (j := 49) (by omega)
    simpa using this
  have hw50 : wordAt t 50 = false := by
    have hn : t[(50 : Nat)]? = none := List.getElem?_eq_none (by omega)
    simp [wordAt, hn]
  have h0 : seqAt t 0 = some (50, t) := by
    unfold seqAt
    rw [if_pos]
    · rw [hrun]
      have ht : t.take 50 = t := List.take_of_length_le (by omega)
      simp [ht]
    · refine ⟨?_, by omega, ?_⟩
      · simp [wbAt, hw0]
      · rw [hrun]
        simp [wbAt, hw49, hw50]
  unfold scanAll
  rw [hlen]
  rw [scanAllAux_cons 50 (by omega) h0]
  rw [(by omega : max 50 (0 + 1) = 50)]
  rw [scanAllAux_stop 50 (by omega)]

theorem sliding_fallback_run50 {t : List Char} (hlen : t.length = 50)
    (hdig : ∀ c ∈ t, isDigitChar c = true) :
    sliding_fallback t = (List.range 7).map (fun i => (t.drop i).take 44) := by
  unfold sliding_fallback
  rw [seq_scan_single hlen hdig]
  simp only [List.foldl_cons, List.foldl_nil, List.nil_append]
  unfold windows44
  rw [if_pos (by omega), hlen]

theorem validar_of_fields {k : List Char} (hlen : k.length = 44)
    (hdig : ∀ c ∈ k, isDigitChar c = true)
    (hUF : k.take 2 = ['3', '5'])
    (hm1 : 1 ≤ val2 k 4) (hm2 : val2 k 4 ≤ 12)
    (hcn : 2 < distinctCount (pySlice k 6 20))
    (hmod : val2 k 20 = 55)
    (hdist : 5 < distinctCount k) : validar_chave_nfe k = true := by
  have h35 : pyInt (k.take 2) = some 35 := by
    rw [hUF]
    decide
  have hano : pyInt (pySlice k 2 4) = some ((val2 k 2 : Nat) : Int) := by
    rw [(by omega : (4:Nat) = 2 + 2)]
    exact pyInt_field (by omega) (charAt_digit hdig (by omega))
      (charAt_digit hdig (by omega))
  have hmes : pyInt (pySlice k 4 6) = some ((val2 k 4 : Nat) : Int) := by
    rw [(by omega : (6:Nat) = 4 + 2)]
    exact pyInt_field (by omega) (charAt_digit hdig (by omega))
      (charAt_digit hdig (by omega))
  have hmodelo : pyInt (pySlice k 20 22) = some ((55 : Nat) : Int) := by
    rw [(by omega : (22:Nat) = 20 + 2)]
    rw [pyInt_field (by omega) (charAt_digit hdig (by omega))
      (charAt_digit hdig (by omega))]
    rw [hmod]
  have hanob : ((val2 k 2 : Nat) : Int) ≤ 99 := by
    have := val2_le_99 k 2
    exact_mod_cast this
  have haamm : aamm_reject ((val2 k 2 : Nat) : Int) ((val2 k 4 : Nat) : Int)
      = false := by
    rw [aamm_reject_of_bounded (by positivity) hanob]
    simp only [Bool.or_eq_false_iff, decide_eq_false_iff_not]
    constructor <;> omega
  have haux : validarAux k = Except.ok true := by
    unfold validarAux
    simp only [h35]
    rw [if_neg (by norm_num)]
    simp only [hano, hmes, haamm]
    rw [if_neg (by simp)]
    rw [if_neg (by omega)]
    simp only [hmodelo]
    rw [if_neg (by norm_num [modelos_validos])]
    rw [if_neg (by omega)]
  rw [validar_eq_paths]
  simp [hlen, pathGeneral, haux]

/-! ## Claim theorems -/

/-- Claim C6: for every string `s`, the digit normalizer `limpar_chave`
returns exactly the ASCII decimal digit characters of `s` in their original
relative order (it equals the digit filter and is a sublist of `s`), it is
idempotent, and the empty string maps to the empty string. -/
theorem claim6_normalizer (s : List Char) :
    limpar_chave s = s.filter isDigitChar ∧
    (∀ c ∈ limpar_chave s, isDigitChar c = true) ∧
    (limpar_chave s).Sublist s ∧
    limpar_chave (limpar_chave s) = limpar_chave s ∧
    limpar_chave ([] : List Char) = [] :=
  ⟨limpar_chave_eq_filter s, limpar_chave_digits,
    limpar_chave_eq_filter s ▸ List.filter_sublist s,
    limpar_chave_idem s, rfl⟩

/-- Witness for C6 at the concrete string `"a1 b2-c3"`. -/
theorem claim6_normalizer_witness :
    limpar_chave ("a1 b2-c3".toList) = ("a1 b2-c3".toList).filter isDigitChar ∧
    isDigitChar '1' = true :=
  ⟨(claim6_normalizer ("a1 b2-c3".toList)).1,
    (claim6_normalizer ("a1 b2-c3".toList)).2.1 '1' (by decide)⟩

/-- Claim C8: every string accepted by `validar_chave_nfe` has at least 6
distinct characters: the `50`-prefix path requires more than 5 distinct
characters directly, and the general path rejects at 5 or fewer. -/
theorem claim8_distinct_bound (s : List Char)
    (h : validar_chave_nfe s = true) : 6 ≤ distinctCount s := by
  rw [validar_eq_paths] at h
  simp only [Bool.and_eq_true, Bool.or_eq_true, decide_eq_true_eq] at h
  rcases h.2 with h5 | hg
  · simp only [path50, Bool.and_eq_true, decide_eq_true_eq] at h5
    omega
  · have := pathGeneral_true_distinct hg
    omega

/-- Witness for C8 at the accepted key `chaveK55`. -/
theorem claim8_distinct_bound_witness :
    validar_chave_nfe chaveK55 = true ∧ 6 ≤ distinctCount chaveK55 :=
  ⟨by decide, claim8_distinct_bound chaveK55 (by decide)⟩

/-- Claim C4: a 44-digit candidate starting with `"50"` with at least 6
distinct digit characters is accepted even when its model field (positions
20-21) is not a valid model; moreover acceptance is exactly the disjunction
of the `50`-prefix path and the general structural path (under the length
check). -/
theorem claim4_prefix50_disjunction :
    (∀ s : List Char, s.length = 44 → (∀ c ∈ s, isDigitChar c = true) →
      s.take 2 = ['5', '0'] → 5 < distinctCount s →
      ¬ ((val2 s 20 : Int) ∈ modelos_validos) →
      validar_chave_nfe s = true) ∧
    (∀ s : List Char,
      validar_chave_nfe s =
        (decide (s.length = 44) && (path50 s || pathGeneral s))) := by
  constructor
  · intro s h44 _ h50 hdist _
    have hp : path50 s = true := by
      simp [path50, h50, hdist]
    rw [validar_eq_paths]
    simp [h44, hp]
  · exact validar_eq_paths

/-- Witness for C4 at `chaveW50`, whose model field is 99. -/
theorem claim4_prefix50_disjunction_witness :
    chaveW50.length = 44 ∧ (∀ c ∈ chaveW50, isDigitChar c = true) ∧
    chaveW50.take 2 = ['5', '0'] ∧ 5 < distinctCount chaveW50 ∧
    ¬ ((val2 chaveW50 20 : Int) ∈ modelos_validos) ∧
    validar_chave_nfe chaveW50 = true :=
  ⟨by decide, by decide, by decide, by decide, by decide,
    claim4_prefix50_disjunction.1 chaveW50 (by decide) (by decide) (by decide)
      (by decide) (by decide)⟩

/-- Claim C9 (implicit): the `50`-prefix path performs no digit check, so
every length-44 string starting `"50"` with more than 5 distinct symbols is
accepted, and in particular some accepted length-44 input contains
non-digit characters: acceptance does not imply the input is numeric. -/
theorem claim9_accepts_nondigits :
    (∀ s : List Char, s.length = 44 → s.take 2 = ['5', '0'] →
      5 < distinctCount s → validar_chave_nfe s = true) ∧
    (∃ s : List Char, s.length = 44 ∧ (∃ c ∈ s, isDigitChar c = false) ∧
      validar_chave_nfe s = true) := by
  constructor
  · intro s h44 h50 hdist
    have hp : path50 s = true := by
      simp [path50, h50, hdist]
    rw [validar_eq_paths]
    simp [h44, hp]
  · exact ⟨chaveW9, by decide, ⟨'a', by decide, by decide⟩, by decide⟩

/-- Witness for C9 at `chaveW9`, which contains letters. -/
theorem claim9_accepts_nondigits_witness :
    chaveW9.length = 44 ∧ chaveW9.take 2 = ['5', '0'] ∧
    5 < distinctCount chaveW9 ∧ validar_chave_nfe chaveW9 = true :=
  ⟨by decide, by decide, by decide,
    claim9_accepts_nondigits.1 chaveW9 (by decide) (by decide) (by decide)⟩

/-- Claim C7: a failing integer conversion inside the validator's `try:`
block (modelled by `validarAux` returning an error) yields the boolean
result `False` for the candidate, not a propagated exception; the embedded
validator is a total boolean function.  Conversions run only when the
length check passed and the `50`-prefix path did not accept. -/
theorem claim7_parse_failure_rejects (s : List Char) (h44 : s.length = 44)
    (h50 : path50 s = false) (herr : validarAux s = Except.error ()) :
    validar_chave_nfe s = false := by
  rw [validar_eq_paths]
  simp [h44, h50, pathGeneral, herr]

/-- Witness for C7 at `chaveBad`, whose federative-unit field is `"ab"`. -/
theorem claim7_parse_failure_rejects_witness :
    chaveBad.length = 44 ∧ path50 chaveBad = false ∧
    validarAux chaveBad = Except.error () ∧
    validar_chave_nfe chaveBad = false :=
  ⟨by decide, by decide, rfl,
    claim7_parse_failure_rejects chaveBad (by decide) (by decide) rfl⟩

/-- Claim C10 (implicit): on an all-digit 44-character candidate the year
parse always yields a value in `[0, 99]`, so the year disjuncts of the AAMM
rejection condition (source line 84) are false and the condition reduces to
the month bounds alone: the year-range rejection branch is unreachable on
the pipeline's all-digit candidates. -/
theorem claim10_year_branch_unreachable (s : List Char) (h44 : s.length = 44)
    (hdig : ∀ c ∈ s, isDigitChar c = true) :
    ∃ a m : Int, pyInt (pySlice s 2 4) = some a ∧
      pyInt (pySlice s 4 6) = some m ∧ 0 ≤ a ∧ a ≤ 99 ∧
      aamm_reject a m = (decide (m < 1) || decide (m > 12)) := by
  have hano : pyInt (pySlice s 2 4) = some ((val2 s 2 : Nat) : Int) := by
    rw [(by omega : (4:Nat) = 2 + 2)]
    exact pyInt_field (by omega) (charAt_digit hdig (by omega))
      (charAt_digit hdig (by omega))
  have hmes : pyInt (pySlice s 4 6) = some ((val2 s 4 : Nat) : Int) := by
    rw [(by omega : (6:Nat) = 4 + 2)]
    exact pyInt_field (by omega) (charAt_digit hdig (by omega))
      (charAt_digit hdig (by omega))
  refine ⟨((val2 s 2 : Nat) : Int), ((val2 s 4 : Nat) : Int), hano, hmes,
    by positivity, ?_, ?_⟩
  · have := val2_le_99 s 2
    exact_mod_cast this
  · apply aamm_reject_of_bounded (by positivity)
    have := val2_le_99 s 2
    exact_mod_cast this

/-- Witness for C10 at the all-digit key `chaveK55`. -/
theorem claim10_year_branch_unreachable_witness :
    ∃ a m : Int, pyInt (pySlice chaveK55 2 4) = some a ∧
      pyInt (pySlice chaveK55 4 6) = some m ∧ 0 ≤ a ∧ a ≤ 99 ∧
      aamm_reject a m = (decide (m < 1) || decide (m > 12)) :=
  claim10_year_branch_unreachable chaveK55 (by decide) (by decide)

/-- Counterexample to C1 as stated: the pipeline's output is not always
made of ASCII decimal digits.  On the text `textoU` (`"50"` followed by 42
Arabic-Indic digits, all matched by Python's Unicode `\d`), the contiguous
pattern matches the whole text, the raw match enters the candidate set
uncleaned, and the `50`-prefix path accepts it (8 distinct characters), so
the final output contains the Arabic-Indic digit `'٠'`, which is not an
ASCII decimal digit. -/
theorem claim1_counterexample :
    textoU ∈ encontrar_chaves_acesso textoU ∧
    ('٠' ∈ textoU ∧ isDigitChar '٠' = false) := by
  refine ⟨by decide, by decide, by decide⟩

/-- Claim C1 as amended: for every input text, every string in the final
output of `encontrar_chaves_acesso` has length 44, consists only of Unicode
decimal digits (the characters Python's `\d` matches), satisfies
`validar_chave_nfe`, and the output is duplicate-free (each key appears
exactly once); when the input text is ASCII, every output string consists
of ASCII decimal digits. -/
theorem claim1_amended_output_invariant (t : List Char) :
    (encontrar_chaves_acesso t).Nodup ∧
    ∀ k ∈ encontrar_chaves_acesso t,
      k.length = 44 ∧ (∀ c ∈ k, isPyDigit c = true) ∧
        validar_chave_nfe k = true ∧
        ((∀ c ∈ t, c.toNat ≤ 127) → ∀ c ∈ k, isDigitChar c = true) := by
  constructor
  · exact (candidatos_nodup t).filter _
  · intro k hk
    unfold encontrar_chaves_acesso at hk
    have hmem := List.mem_of_mem_filter hk
    have hp := (List.mem_filter.mp hk).2
    simp only [Bool.and_eq_true, decide_eq_true_eq] at hp
    refine ⟨hp.1, fun c hc => (candidatos_chars k hmem c hc).1, hp.2, ?_⟩
    intro hascii c hc
    obtain ⟨hpd, hor⟩ := candidatos_chars k hmem c hc
    rcases hor with hd | hmt
    · exact hd
    · exact digit_of_ascii_pydigit hpd (hascii c hmt)

/-- Witness for the amended C1 on the ASCII text consisting of the key
`chaveK55` alone. -/
theorem claim1_amended_output_invariant_witness :
    (encontrar_chaves_acesso chaveK55).Nodup ∧
    (chaveK55.length = 44 ∧ (∀ c ∈ chaveK55, isPyDigit c = true) ∧
      validar_chave_nfe chaveK55 = true ∧
      ((∀ c ∈ chaveK55, c.toNat ≤ 127) → ∀ c ∈ chaveK55,
        isDigitChar c = true)) :=
  ⟨(claim1_amended_output_invariant chaveK55).1,
    (claim1_amended_output_invariant chaveK55).2 chaveK55 (by decide)⟩

/-- Counterexample to C2 as stated: on the specification's end-to-end input
text the pipeline does not produce exactly one access key — the single
candidate's model field (positions 20-21 of the 44-digit concatenation) is
67, which no validation path accepts, so the output is empty. -/
theorem claim2_counterexample : (encontrar_chaves_acesso textoC2).length ≠ 1 := by
  decide

/-- Claim C2 as amended: on the specification's end-to-end input text the
scanner does produce the single candidate equal to the concatenation of all
44 digits, but the validator rejects it (model field 67), so the pipeline
produces zero access keys and the document is routed to the no-key
outcome. -/
theorem claim2_amended_no_key :
    candidatos textoC2 = [chaveC2] ∧
    val2 chaveC2 20 = 67 ∧
    validar_chave_nfe chaveC2 = false ∧
    encontrar_chaves_acesso textoC2 = [] ∧
    tem_chave textoC2 = false := by
  refine ⟨by decide, by decide, by decide, by decide, by decide⟩

/-- Counterexample to C3 as stated: the text consisting of fifty `'1'`
characters is a single maximal digit run of length 50, yet the sliding
window fallback yields only one distinct 44-digit candidate, not 7, because
all seven windows coincide. -/
theorem claim3_counterexample :
    (List.replicate 50 '1').length = 50 ∧
    (∀ c ∈ List.replicate 50 '1', isDigitChar c = true) ∧
    (sliding_fallback (List.replicate 50 '1')).dedup.length = 1 := by
  refine ⟨by decide, by decide, by decide⟩

/-- Claim C3 as amended: for a text that is a single digit run of length 50,
the sliding-window fallback generates exactly the seven contiguous
44-character windows of the run at step 1 (in order, one per offset
`0..6`), each of length 44; the number of distinct candidates is therefore
7 exactly when those windows are pairwise distinct (and smaller for
degenerate runs, since candidates are collected in a set). -/
theorem claim3_amended_windows (t : List Char) (hlen : t.length = 50)
    (hdig : ∀ c ∈ t, isDigitChar c = true) :
    sliding_fallback t = (List.range 7).map (fun i => (t.drop i).take 44) ∧
    (sliding_fallback t).length = 7 ∧
    ∀ x ∈ sliding_fallback t, x.length = 44 := by
  have heq := sliding_fallback_run50 hlen hdig
  refine ⟨heq, by simp [heq], ?_⟩
  intro x hx
  rw [heq] at hx
  obtain ⟨i, hi, hxe⟩ := List.mem_map.mp hx
  rw [List.mem_range] at hi
  rw [← hxe]
  simp [List.length_take, List.length_drop, hlen]
  omega

/-- Witness for the amended C3 at the run `texto50` of all ten digits. -/
theorem claim3_amended_windows_witness :
    texto50.length = 50 ∧
    sliding_fallback texto50 =
      (List.range 7).map (fun i => (texto50.drop i).take 44) ∧
    (sliding_fallback texto50).length = 7 :=
  ⟨by decide, (claim3_amended_windows texto50 (by decide) (by decide)).1,
    (claim3_amended_windows texto50 (by decide) (by decide)).2.1⟩

/-- Counterexample to C5 as stated: the degenerate key `chaveDeg` satisfies
every enumerated field condition (UF 35, valid AAMM, CNPJ field with more
than 2 distinct characters, model 55) and is found by the scanner as a
contiguous 44-digit key, yet it is absent from the final output because the
validator additionally requires more than 5 distinct characters overall and
`chaveDeg` has only 4. -/
theorem claim5_counterexample :
    chaveDeg.length = 44 ∧
    (∀ c ∈ chaveDeg, isDigitChar c = true) ∧
    chaveDeg.take 2 = ['3', '5'] ∧
    1 ≤ val2 chaveDeg 4 ∧ val2 chaveDeg 4 ≤ 12 ∧
    2 < distinctCount (pySlice chaveDeg 6 20) ∧
    val2 chaveDeg 20 = 55 ∧
    chaveDeg ∈ candidatos chaveDeg ∧
    ¬ (chaveDeg ∈ encontrar_chaves_acesso chaveDeg) := by
  refine ⟨by decide, by decide, by decide, by decide, by decide, by decide,
    by decide, by decide, by decide⟩

/-- Claim C5 as amended: when an ASCII raw text contains the 44-digit key
as a digit run bounded by non-word characters (or text edges) and the key
has federative-unit code 35, a valid month, a CNPJ field with more than 2
distinct characters, model 55, and — as the validator additionally
requires — more than 5 distinct characters overall, the contiguous pattern
includes the key among the scanner's candidates and the aggregator includes
it in the final output.  The ASCII hypothesis confines the statement to
texts on which the embedded word-boundary class coincides with Python's
Unicode `\b` (next to a non-ASCII letter such as `'é'` the program has no
word boundary and finds nothing). -/
theorem claim5_amended_scan_finds (t : List Char) (i : Nat)
    (_hascii : ∀ c ∈ t, c.toNat ≤ 127)
    (h44 : i + 44 ≤ t.length)
    (hdig : ∀ c ∈ (t.drop i).take 44, isDigitChar c = true)
    (hpre : i = 0 ∨ wordAt t (i - 1) = false)
    (hpost : wordAt t (i + 44) = false)
    (hUF : ((t.drop i).take 44).take 2 = ['3', '5'])
    (hm1 : 1 ≤ val2 ((t.drop i).take 44) 4)
    (hm2 : val2 ((t.drop i).take 44) 4 ≤ 12)
    (hcn : 2 < distinctCount (pySlice ((t.drop i).take 44) 6 20))
    (hmod : val2 ((t.drop i).take 44) 20 = 55)
    (hdist : 5 < distinctCount ((t.drop i).take 44)) :
    (t.drop i).take 44 ∈ scanAll p1At t ∧
    (t.drop i).take 44 ∈ encontrar_chaves_acesso t := by
  have klen : ((t.drop i).take 44).length = 44 := by
    simp only [List.length_take, List.length_drop]
    omega
  have hrun : 44 ≤ digitRun t i := by
    apply digitRunFrom_ge
    · simp only [List.length_drop]
      omega
    · exact fun c hc => isPyDigit_of_digit (hdig c hc)
  have hword_i : wordAt t i = true := by
    have := digitRun_word (t := t) (i := i) (j := 0) (by omega)
    simpa using this
  have hwb1 : wbAt t i = true := by
    rcases hpre with h0 | hw
    · subst h0
      simp [wbAt, hword_i]
    · by_cases h0 : i = 0
      · subst h0
        simp [wbAt, hword_i]
      · simp [wbAt, h0, hw, hword_i]
  have hword43 : wordAt t (i + 43) = true :=
    digitRun_word (t := t) (i := i) (j := 43) (by omega)
  have hwb2 : wbAt t (i + 44) = true := by
    have h0 : ¬ (i + 44 = 0) := by omega
    have h43 : i + 44 - 1 = i + 43 := by omega
    simp [wbAt, h0, h43, hword43, hpost]
  have hm : p1At t i = some (i + 44, (t.drop i).take 44) := by
    unfold p1At
    rw [if_pos ⟨hwb1, hrun, hwb2⟩]
  have hscan : (t.drop i).take 44 ∈ scanAll p1At t := p1_scan_complete hm
  have hval : validar_chave_nfe ((t.drop i).take 44) = true :=
    validar_of_fields klen hdig hUF hm1 hm2 hcn hmod hdist
  have hadded : (t.drop i).take 44 ∈ addedList t := by
    unfold addedList
    simp [hscan]
  have hcand : (t.drop i).take 44 ∈ candidatos t :=
    mem_foldl_addCand_of_mem hadded []
  refine ⟨hscan, ?_⟩
  unfold encontrar_chaves_acesso
  exact List.mem_filter.mpr ⟨hcand, by simp [klen, hval]⟩

/-- Witness for the amended C5: the text consisting of `chaveK55` alone,
with the key at offset 0. -/
theorem claim5_amended_scan_finds_witness :
    (chaveK55.drop 0).take 44 ∈ scanAll p1At chaveK55 ∧
    (chaveK55.drop 0).take 44 ∈ encontrar_chaves_acesso chaveK55 :=
  claim5_amended_scan_finds chaveK55 0 (by decide) (by decide) (by decide)
    (Or.inl rfl) (by decide) (by decide) (by decide) (by decide) (by decide)
    (by decide) (by decide)
